import Mathlib

/-!
Shallow embedding of the chained hash table of `src/hash_map.h`.

The C++ container keeps a `std::list` (`storage`) of (key, value) pairs and a
vector `table` of `capacity` chains, each chain being a list of iterators into
`storage`.  A `std::list` iterator is a stable node handle, so the embedding
tags every storage node with a unique numeric identity (`Entry.id`, allocated
from a `nextId` counter); chains store these ids.  Dereferencing an iterator
is looking the id up in `storage`.  The ghost field `rehashes` counts how many
times the rehashing routine `update` actually fired.

Machine integers (`int` counters, `size_t` hashes) are modelled as `Nat`; the
counters stay far below any overflow bound on well-formed states, and the
C++ hash is reduced modulo `capacity` immediately.
-/

set_option linter.unusedVariables false
set_option linter.unusedSectionVars false

namespace HMap

/-- One node of the C++ `storage` list: a unique node identity (modelling the
address of the `std::list` node an iterator points to), the immutable key and
the value. -/
structure Entry (K V : Type) where
  id : Nat
  key : K
  val : V
  deriving DecidableEq, Repr

/-- The state of a `HashMap<K, V, Hash>` object: the `storage` list, the
hasher, the bucket vector `table` (chains of node ids), and the counters.
`nextId` is the allocator for node identities; `rehashes` is a ghost counter
of completed rehashes. -/
structure HashMap (K V : Type) where
  hasher : K → Nat
  storage : List (Entry K V)
  capacity : Nat
  table : List (List Nat)
  numElements : Nat
  nextId : Nat
  rehashes : Nat

variable {K V : Type} [DecidableEq K]

/-- C++ `applyHash`: `hasher(obj) % capacity`. -/
def applyHash (s : HashMap K V) (k : K) : Nat :=
  s.hasher k % s.capacity

/-- Read the chain stored at bucket `h` (an out-of-range bucket reads as
empty; well-formed states never index out of range). -/
def chainAt : List (List Nat) → Nat → List Nat
  | [], _ => []
  | c :: _, 0 => c
  | _ :: t, h + 1 => chainAt t h

/-- Replace the chain at bucket `h` (no-op when out of range, mirroring
`std::vector::operator[]` which is only used in range). -/
def setChain : List (List Nat) → Nat → List Nat → List (List Nat)
  | [], _, _ => []
  | _ :: t, 0, c => c :: t
  | c0 :: t, h + 1, c => c0 :: setChain t h c

/-- A fresh bucket vector of `n` empty chains. -/
def mkTable (n : Nat) : List (List Nat) :=
  List.replicate n []

/-- C++ `initializeTable(_capacity)`: set `capacity` and allocate a fresh
vector of that many empty chains. -/
def initializeTable (s : HashMap K V) (c : Nat) : HashMap K V :=
  { s with capacity := c, table := mkTable c }

/-- Dereference a node id: find the storage node an iterator points to. -/
def lookupId : List (Entry K V) → Nat → Option (Entry K V)
  | [], _ => none
  | e :: rest, i => if e.id = i then some e else lookupId rest i

/-- Dereference a node id in the container's storage. -/
def derefId (s : HashMap K V) (i : Nat) : Option (Entry K V) :=
  lookupId s.storage i

/-- The chain scan shared by `find`, the duplicate check of `insert` and the
scan of `erase`: walk the chain, dereference each iterator and return the
first entry whose key equals `k`. -/
def scanChain (s : HashMap K V) (k : K) : List Nat → Option (Entry K V)
  | [] => none
  | i :: rest =>
    match derefId s i with
    | some e => if e.key = k then some e else scanChain s k rest
    | none => scanChain s k rest

/-- The same scan returning the matching node id (the iterator value), as
used by `erase`. -/
def scanChainId (s : HashMap K V) (k : K) : List Nat → Option Nat
  | [] => none
  | i :: rest =>
    match derefId s i with
    | some e => if e.key = k then some i else scanChainId s k rest
    | none => scanChainId s k rest

/-- C++ `find`: scan the chain of the key's bucket; `none` models `end()`. -/
def find (s : HashMap K V) (k : K) : Option (Entry K V) :=
  scanChain s k (chainAt s.table (applyHash s k))

/-- The value stored under a key, when present. -/
def findVal (s : HashMap K V) (k : K) : Option V :=
  (find s k).map (fun e => e.val)

/-- The observable (key, value) content of the container, in storage order
(the iteration order of `begin()`/`end()`). -/
def content (s : HashMap K V) : List (K × V) :=
  s.storage.map (fun e => (e.key, e.val))

/-- C++ `push_back(obj, hashed)` followed by `++numElements`: append a fresh
node to `storage` and register its iterator in the bucket chain. -/
def pushBump (s : HashMap K V) (p : K × V) (h : Nat) : HashMap K V :=
  { s with
    storage := s.storage ++ [⟨s.nextId, p.1, p.2⟩],
    table := setChain s.table h (chainAt s.table h ++ [s.nextId]),
    nextId := s.nextId + 1,
    numElements := s.numElements + 1 }

/-- The state of `update` after `storage.clear(); table.clear();
initializeTable(capacity * inv_alpha); numElements = 0;`, with the ghost
rehash counter bumped. -/
def resetForRehash (s : HashMap K V) : HashMap K V :=
  initializeTable { s with storage := [], numElements := 0, rehashes := s.rehashes + 1 }
    (s.capacity * 2)

/-- C++ `insert` with the trailing `update()` call elided: skip if the key is
already in its chain, otherwise push the node.  This is exactly what `insert`
does whenever the load guard in `update` fails. -/
def insertNR (s : HashMap K V) (p : K × V) : HashMap K V :=
  let h := applyHash s p.1
  if (scanChain s p.1 (chainAt s.table h)).isSome then s
  else pushBump s p h

/-- C++ `insert` (with its `update()` call), fuel-indexed: `update` reinserts
every saved pair through `insert` itself, and the fuel bounds the depth of
this nesting.  Fuel 0 behaves like `insert` with the nested `update` call
skipped; on well-formed states the nested load guard never fires, so any fuel
of at least 1 computes the real function (proved below). -/
def insertF : Nat → HashMap K V → K × V → HashMap K V
  | 0, s, p => insertNR s p
  | f + 1, s, p =>
    let h := applyHash s p.1
    if (scanChain s p.1 (chainAt s.table h)).isSome then s
    else
      let s' := pushBump s p h
      if s'.numElements * 2 < s'.capacity then s'
      else (content s').foldl (fun acc q => insertF f acc q) (resetForRehash s')

/-- C++ `insert`: one level of `update` nesting suffices on well-formed
states. -/
def insert (s : HashMap K V) (p : K × V) : HashMap K V :=
  insertF 1 s p

/-- The information returned by C++ `insert`: the function is declared
`void`, so no reference to the stored entry is returned.  `none` models the
absent return value (a returned node id would be `some`). -/
def insertRet (s : HashMap K V) (p : K × V) : Option Nat :=
  none

/-- Remove the first element satisfying the predicate, like erasing the found
position from a `std::list`. -/
def eraseFirst {α : Type} (pred : α → Bool) : List α → List α
  | [] => []
  | a :: l => if pred a then l else a :: eraseFirst pred l

/-- C++ `erase`: scan the key's chain; when an iterator with the key is
found, erase that node from `storage`, that iterator from the chain, and
decrement the count. -/
def erase (s : HashMap K V) (k : K) : HashMap K V :=
  let h := applyHash s k
  match scanChainId s k (chainAt s.table h) with
  | none => s
  | some i =>
    { s with
      storage := eraseFirst (fun e => e.id == i) s.storage,
      table := setChain s.table h (eraseFirst (fun j => j == i) (chainAt s.table h)),
      numElements := s.numElements - 1 }

/-- C++ `clear`: clear the chain of every stored key's bucket, then clear
`storage` and zero the count.  `capacity` and `table.size()` are untouched. -/
def clear (s : HashMap K V) : HashMap K V :=
  { s with
    table := s.storage.foldl (fun t e => setChain t (applyHash s e.key) []) s.table,
    storage := [],
    numElements := 0 }

/-- C++ `at`: the value when the key is present; `none` models the thrown
`std::out_of_range` exception. -/
def atKey (s : HashMap K V) (k : K) : Option V :=
  match find s k with
  | none => none
  | some e => some e.val

/-- C++ `operator[]`: find; if absent, insert the default value and find
again; return the value together with the (possibly updated) state. -/
def index [Inhabited V] (s : HashMap K V) (k : K) : V × HashMap K V :=
  match find s k with
  | some e => (e.val, s)
  | none =>
    let s' := insert s (k, default)
    match find s' k with
    | some e => (e.val, s')
    | none => (default, s')

/-- C++ `size()`. -/
def size (s : HashMap K V) : Nat :=
  s.numElements

/-- C++ `empty()`: `!numElements`. -/
def emptyQ (s : HashMap K V) : Bool :=
  s.numElements == 0

/-- C++ `hash_function()`. -/
def hashFunction (s : HashMap K V) : K → Nat :=
  s.hasher

/-- The default constructor `HashMap(hasherObj)`: store the hasher and run
`initializeTable()` with the default capacity 16. -/
def emptyMap (hasher : K → Nat) : HashMap K V :=
  initializeTable
    { hasher := hasher, storage := [], capacity := 0, table := [],
      numElements := 0, nextId := 0, rehashes := 0 } 16

/-- The range and initializer-list constructors: a chain of `insert` calls on
a default-constructed container. -/
def ofList (hasher : K → Nat) (l : List (K × V)) : HashMap K V :=
  l.foldl insert (emptyMap hasher)

/-- C++ `operator=` on distinct objects: `clear()`, copy the hasher, rebuild
the table at the source's capacity, then insert every entry of the source in
its iteration order.  (The self-assignment guard compares object addresses,
which have no counterpart for Lean values; this models the non-self path.) -/
def assign (s other : HashMap K V) : HashMap K V :=
  let s1 := { clear s with hasher := other.hasher }
  let s2 := initializeTable s1 other.capacity
  (content other).foldl insert s2

/-- The storage nodes that a run of fresh inserts starting at id `i` creates
for the pairs of `l`. -/
def buildEntries (i : Nat) : List (K × V) → List (Entry K V)
  | [] => []
  | (k, v) :: rest => ⟨i, k, v⟩ :: buildEntries (i + 1) rest

/-- The capacity after inserting `j` fresh keys into a container with
capacity `c` and `n` elements: each insert bumps the count and doubles the
capacity exactly when the load guard `numElements * 2 < capacity` fails. -/
def capAfter : Nat → Nat → Nat → Nat
  | c, _, 0 => c
  | c, n, j + 1 =>
    if (n + 1) * 2 < c then capAfter c (n + 1) j else capAfter (c * 2) (n + 1) j

/-- The number of rehashes performed while inserting `j` fresh keys into a
container with capacity `c` and `n` elements. -/
def rehashCount : Nat → Nat → Nat → Nat
  | _, _, 0 => 0
  | c, n, j + 1 =>
    if (n + 1) * 2 < c then rehashCount c (n + 1) j
    else rehashCount (c * 2) (n + 1) j + 1

/-- Well-formedness of a container state: what holds of every state reachable
through the public interface.  `table` has exactly `capacity` chains, the
capacity is at least the initial 16, the load factor is below 1/2,
`numElements` counts `storage`, keys and node ids are unique, every chain
member dereferences to a stored node hashing to that bucket, every stored
node's id is registered in its bucket's chain, and chains hold no duplicate
iterators. -/
def WF (s : HashMap K V) : Prop :=
  s.table.length = s.capacity ∧
  16 ≤ s.capacity ∧
  s.numElements * 2 < s.capacity ∧
  s.numElements = s.storage.length ∧
  (s.storage.map (fun e => e.key)).Nodup ∧
  (s.storage.map (fun e => e.id)).Nodup ∧
  (∀ e ∈ s.storage, e.id < s.nextId) ∧
  (∀ h < s.capacity, ∀ i ∈ chainAt s.table h,
    ∃ e ∈ s.storage, e.id = i ∧ applyHash s e.key = h) ∧
  (∀ e ∈ s.storage, e.id ∈ chainAt s.table (applyHash s e.key)) ∧
  (∀ h < s.capacity, (chainAt s.table h).Nodup)

instance (s : HashMap K V) : Decidable (WF s) := by
  unfold WF
  infer_instance

/-! ### Projections of well-formedness -/

lemma WF.tableLen {s : HashMap K V} (hw : WF s) : s.table.length = s.capacity := hw.1

lemma WF.cap16 {s : HashMap K V} (hw : WF s) : 16 ≤ s.capacity := hw.2.1

lemma WF.load {s : HashMap K V} (hw : WF s) : s.numElements * 2 < s.capacity := hw.2.2.1

lemma WF.count {s : HashMap K V} (hw : WF s) : s.numElements = s.storage.length :=
  hw.2.2.2.1

lemma WF.keysNodup {s : HashMap K V} (hw : WF s) :
    (s.storage.map (fun e => e.key)).Nodup := hw.2.2.2.2.1

lemma WF.idsNodup {s : HashMap K V} (hw : WF s) :
    (s.storage.map (fun e => e.id)).Nodup := hw.2.2.2.2.2.1

lemma WF.idsLt {s : HashMap K V} (hw : WF s) : ∀ e ∈ s.storage, e.id < s.nextId :=
  hw.2.2.2.2.2.2.1

lemma WF.chainSound {s : HashMap K V} (hw : WF s) :
    ∀ h < s.capacity, ∀ i ∈ chainAt s.table h,
      ∃ e ∈ s.storage, e.id = i ∧ applyHash s e.key = h := hw.2.2.2.2.2.2.2.1

lemma WF.chainComplete {s : HashMap K V} (hw : WF s) :
    ∀ e ∈ s.storage, e.id ∈ chainAt s.table (applyHash s e.key) :=
  hw.2.2.2.2.2.2.2.2.1

lemma WF.chainNodup {s : HashMap K V} (hw : WF s) :
    ∀ h < s.capacity, (chainAt s.table h).Nodup := hw.2.2.2.2.2.2.2.2.2

lemma WF.capPos {s : HashMap K V} (hw : WF s) : 0 < s.capacity :=
  Nat.lt_of_lt_of_le (by norm_num) hw.cap16

lemma applyHash_lt {s : HashMap K V} (hw : WF s) (k : K) : applyHash s k < s.capacity :=
  Nat.mod_lt _ hw.capPos

/-! ### Bucket vector helpers -/

lemma length_setChain (t : List (List Nat)) (h : Nat) (c : List Nat) :
    (setChain t h c).length = t.length := by
  induction t generalizing h with
  | nil => rfl
  | cons c0 t ih =>
    cases h with
    | zero => rfl
    | succ h => simp [setChain, ih]

lemma chainAt_setChain_self {t : List (List Nat)} {h : Nat} (hh : h < t.length)
    (c : List Nat) : chainAt (setChain t h c) h = c := by
  induction t generalizing h with
  | nil => simp at hh
  | cons c0 t ih =>
    cases h with
    | zero => rfl
    | succ h =>
      simp only [List.length_cons, Nat.succ_lt_succ_iff] at hh
      simpa [setChain, chainAt] using ih hh

lemma chainAt_setChain_ne {t : List (List Nat)} {h h' : Nat} (hne : h' ≠ h)
    (c : List Nat) : chainAt (setChain t h c) h' = chainAt t h' := by
  induction t generalizing h h' with
  | nil => rfl
  | cons c0 t ih =>
    cases h with
    | zero =>
      cases h' with
      | zero => exact absurd rfl hne
      | succ h' => rfl
    | succ h =>
      cases h' with
      | zero => rfl
      | succ h' =>
        simpa [setChain, chainAt] using ih (fun hc => hne (by simp [hc]))

lemma setChain_of_le_length {t : List (List Nat)} {h : Nat} (hh : t.length ≤ h)
    (c : List Nat) : setChain t h c = t := by
  induction t generalizing h with
  | nil => rfl
  | cons c0 t ih =>
    cases h with
    | zero => simp at hh
    | succ h =>
      simp only [List.length_cons, Nat.succ_le_succ_iff] at hh
      simp [setChain, ih hh]

lemma chainAt_of_le_length {t : List (List Nat)} {h : Nat} (hh : t.length ≤ h) :
    chainAt t h = [] := by
  induction t generalizing h with
  | nil => rfl
  | cons c0 t ih =>
    cases h with
    | zero => simp at hh
    | succ h =>
      simp only [List.length_cons, Nat.succ_le_succ_iff] at hh
      simpa [chainAt] using ih hh

lemma length_mkTable (n : Nat) : (mkTable n : List (List Nat)).length = n := by
  simp [mkTable]

lemma chainAt_mkTable (n h : Nat) : chainAt (mkTable n) h = [] := by
  induction n generalizing h with
  | zero => rfl
  | succ n ih =>
    cases h with
    | zero => rfl
    | succ h => simpa [mkTable, List.replicate_succ, chainAt] using ih h

/-! ### eraseFirst helpers -/

lemma eraseFirst_sublist {α : Type} (pred : α → Bool) (l : List α) :
    List.Sublist (eraseFirst pred l) l := by
  induction l with
  | nil => exact List.Sublist.refl []
  | cons a l ih =>
    by_cases hp : pred a
    · simp [eraseFirst, hp]
    · simpa [eraseFirst, hp] using ih.cons₂ a

lemma eraseFirst_spec {α : Type} (pred : α → Bool) (a : α) :
    ∀ l : List α, a ∈ l → l.Nodup → (∀ x ∈ l, pred x = true ↔ x = a) →
      (eraseFirst pred l).length + 1 = l.length ∧
        ∀ x, x ∈ eraseFirst pred l ↔ x ∈ l ∧ x ≠ a := by
  intro l
  induction l with
  | nil => intro ha; simp at ha
  | cons b t ih =>
    intro ha hnd hu
    by_cases hp : pred b
    · have hb : b = a := (hu b (by simp)).1 hp
      subst hb
      have hbt : b ∉ t := (List.nodup_cons.1 hnd).1
      refine ⟨by simp [eraseFirst, hp], fun x => ?_⟩
      constructor
      · intro hx
        exact ⟨by simp [eraseFirst, hp] at hx; simp [hx],
          fun hxa => hbt (by simpa [eraseFirst, hp, hxa] using hx)⟩
      · rintro ⟨hx, hxa⟩
        rcases List.mem_cons.1 hx with h | h
        · exact absurd h hxa
        · simpa [eraseFirst, hp] using h
    · have hba : b ≠ a := fun hba => hp ((hu b (by simp)).2 hba)
      have hat : a ∈ t := by
        rcases List.mem_cons.1 ha with h | h
        · exact absurd h.symm hba
        · exact h
      have ih' := ih hat (List.nodup_cons.1 hnd).2 (fun x hx => hu x (by simp [hx]))
      refine ⟨by simpa [eraseFirst, hp] using ih'.1, fun x => ?_⟩
      constructor
      · intro hx
        simp only [eraseFirst, hp, Bool.false_eq_true, if_false, List.mem_cons] at hx
        rcases hx with h | h
        · exact ⟨by simp [h], by simpa [h] using hba⟩
        · have := (ih'.2 x).1 h
          exact ⟨by simp [this.1], this.2⟩
      · rintro ⟨hx, hxa⟩
        rcases List.mem_cons.1 hx with h | h
        · simp [eraseFirst, hp, h]
        · simp only [eraseFirst, hp, Bool.false_eq_true, if_false, List.mem_cons]
          exact Or.inr ((ih'.2 x).2 ⟨h, hxa⟩)

/-! ### Storage lookup helpers -/

lemma map_nodup_unique {α β : Type} {f : α → β} {l : List α}
    (hnd : (l.map f).Nodup) {e1 e2 : α} (h1 : e1 ∈ l) (h2 : e2 ∈ l)
    (hf : f e1 = f e2) : e1 = e2 := by
  induction l with
  | nil => simp at h1
  | cons a t ih =>
    simp only [List.map_cons, List.nodup_cons] at hnd
    have hna : f a ∉ t.map f := hnd.1
    rcases List.mem_cons.1 h1 with h1' | h1' <;> rcases List.mem_cons.1 h2 with h2' | h2'
    · rw [h1', h2']
    · subst h1'
      exact absurd (by rw [hf]; exact List.mem_map_of_mem f h2') hna
    · subst h2'
      exact absurd (by rw [← hf]; exact List.mem_map_of_mem f h1') hna
    · exact ih hnd.2 h1' h2'

lemma lookupId_eq_some {st : List (Entry K V)} {i : Nat} {e : Entry K V}
    (h : lookupId st i = some e) : e ∈ st ∧ e.id = i := by
  induction st with
  | nil => simp [lookupId] at h
  | cons e0 t ih =>
    by_cases hi : e0.id = i
    · simp only [lookupId, hi, if_pos rfl] at h
      cases h
      exact ⟨by simp, hi⟩
    · simp only [lookupId, hi, if_false] at h
      have := ih h
      exact ⟨by simp [this.1], this.2⟩

lemma lookupId_of_mem {st : List (Entry K V)} (hnd : (st.map (fun e => e.id)).Nodup)
    {e : Entry K V} (he : e ∈ st) : lookupId st e.id = some e := by
  induction st with
  | nil => simp at he
  | cons e0 t ih =>
    simp only [List.map_cons, List.nodup_cons] at hnd
    rcases List.mem_cons.1 he with h | h
    · simp [lookupId, h]
    · have hne : e0.id ≠ e.id := by
        intro hc
        exact hnd.1 (hc ▸ List.mem_map_of_mem (fun e => e.id) h)
      simp only [lookupId, hne, if_false]
      exact ih hnd.2 h

/-! ### Chain scans and the characterization of find -/

lemma scanChain_eq_some {s : HashMap K V} {k : K} {l : List Nat} {e : Entry K V}
    (h : scanChain s k l = some e) : e ∈ s.storage ∧ e.key = k := by
  induction l with
  | nil => simp [scanChain] at h
  | cons i rest ih =>
    cases hd : derefId s i with
    | none =>
      simp only [scanChain, hd] at h
      exact ih h
    | some e0 =>
      simp only [scanChain, hd] at h
      by_cases hk : e0.key = k
      · rw [if_pos hk] at h
        cases h
        exact ⟨(lookupId_eq_some hd).1, hk⟩
      · rw [if_neg hk] at h
        exact ih h

lemma scanChain_some_of_mem {s : HashMap K V} {k : K} {e : Entry K V}
    (hknd : (s.storage.map (fun x => x.key)).Nodup)
    (hidnd : (s.storage.map (fun x => x.id)).Nodup)
    (he : e ∈ s.storage) (hk : e.key = k) :
    ∀ l : List Nat, e.id ∈ l → scanChain s k l = some e := by
  intro l
  induction l with
  | nil => intro h; simp at h
  | cons i rest ih =>
    intro hmem
    cases hd : derefId s i with
    | none =>
      have hine : i ≠ e.id := by
        intro hc
        rw [hc, derefId, lookupId_of_mem hidnd he] at hd
        cases hd
      have hmem' : e.id ∈ rest := by
        rcases List.mem_cons.1 hmem with h | h
        · exact absurd h.symm hine
        · exact h
      simp only [scanChain, hd]
      exact ih hmem'
    | some e0 =>
      by_cases hk0 : e0.key = k
      · have he0 : e0 ∈ s.storage := (lookupId_eq_some hd).1
        have : e0 = e := map_nodup_unique hknd he0 he (by rw [hk0, hk])
        simp [scanChain, hd, this, hk]
      · have hine : i ≠ e.id := by
          intro hc
          rw [hc, derefId, lookupId_of_mem hidnd he] at hd
          injection hd with h1
          exact hk0 (by rw [← h1]; exact hk)
        have hmem' : e.id ∈ rest := by
          rcases List.mem_cons.1 hmem with h | h
          · exact absurd h.symm hine
          · exact h
        simp only [scanChain, hd, if_neg hk0]
        exact ih hmem'

lemma find_eq_some_iff {s : HashMap K V} (hw : WF s) {k : K} {e : Entry K V} :
    find s k = some e ↔ e ∈ s.storage ∧ e.key = k := by
  constructor
  · intro h
    exact scanChain_eq_some h
  · rintro ⟨he, hk⟩
    have hmem : e.id ∈ chainAt s.table (applyHash s k) := by
      have := hw.chainComplete e he
      rwa [hk] at this
    exact scanChain_some_of_mem hw.keysNodup hw.idsNodup he hk _ hmem

lemma find_eq_none_iff {s : HashMap K V} (hw : WF s) {k : K} :
    find s k = none ↔ ∀ e ∈ s.storage, e.key ≠ k := by
  constructor
  · intro h e he hk
    rw [(find_eq_some_iff hw).2 ⟨he, hk⟩] at h
    cases h
  · intro h
    cases hf : find s k with
    | none => rfl
    | some e =>
      have hs := scanChain_eq_some hf
      exact absurd hs.2 (h e hs.1)

lemma findVal_eq_some_iff {s : HashMap K V} (hw : WF s) {k : K} {v : V} :
    findVal s k = some v ↔ ∃ e ∈ s.storage, e.key = k ∧ e.val = v := by
  constructor
  · intro h
    rw [findVal] at h
    cases hf : find s k with
    | none => rw [hf] at h; cases h
    | some e =>
      rw [hf] at h
      have hs := (find_eq_some_iff hw).1 hf
      exact ⟨e, hs.1, hs.2, by injection h⟩
  · rintro ⟨e, he, hk, hv⟩
    rw [findVal, (find_eq_some_iff hw).2 ⟨he, hk⟩]
    simp [hv]

lemma mem_content_iff {s : HashMap K V} {k : K} {v : V} :
    (k, v) ∈ content s ↔ ∃ e ∈ s.storage, e.key = k ∧ e.val = v := by
  constructor
  · intro h
    rcases List.mem_map.1 h with ⟨e, he, hev⟩
    have h1 : e.key = k := congrArg Prod.fst hev
    have h2 : e.val = v := congrArg Prod.snd hev
    exact ⟨e, he, h1, h2⟩
  · rintro ⟨e, he, hk, hv⟩
    exact List.mem_map.2 ⟨e, he, by rw [hk, hv]⟩

lemma findVal_eq_some_iff_content {s : HashMap K V} (hw : WF s) {k : K} {v : V} :
    findVal s k = some v ↔ (k, v) ∈ content s := by
  rw [findVal_eq_some_iff hw, mem_content_iff]

lemma scanChain_storage_nil {s : HashMap K V} (hst : s.storage = []) (k : K) :
    ∀ l, scanChain s k l = none := by
  intro l
  induction l with
  | nil => rfl
  | cons i rest ih =>
    have hd : derefId s i = none := by rw [derefId, hst]; rfl
    simp [scanChain, hd, ih]

lemma scanChainId_eq (s : HashMap K V) (k : K) :
    ∀ l, scanChainId s k l = (scanChain s k l).map (fun e => e.id) := by
  intro l
  induction l with
  | nil => rfl
  | cons i rest ih =>
    cases hd : derefId s i with
    | none => simp [scanChainId, scanChain, hd, ih]
    | some e0 =>
      by_cases hk : e0.key = k
      · have hid : e0.id = i := (lookupId_eq_some hd).2
        simp [scanChainId, scanChain, hd, if_pos hk, hid]
      · simp [scanChainId, scanChain, hd, if_neg hk, ih]

/-! ### The fresh-insert step -/

lemma applyHash_pushBump (s : HashMap K V) (p : K × V) (h : Nat) (k : K) :
    applyHash (pushBump s p h) k = applyHash s k := rfl

lemma insertNR_eq_ite (s : HashMap K V) (p : K × V) :
    insertNR s p =
      if (find s p.1).isSome then s else pushBump s p (applyHash s p.1) := rfl

lemma insertF_succ_eq (f : Nat) (s : HashMap K V) (p : K × V) :
    insertF (f + 1) s p =
      if (find s p.1).isSome then s
      else
        let s' := pushBump s p (applyHash s p.1)
        if s'.numElements * 2 < s'.capacity then s'
        else (content s').foldl (fun acc q => insertF f acc q) (resetForRehash s') := by
  rfl

lemma insertNR_present {s : HashMap K V} {p : K × V} {e : Entry K V}
    (h : find s p.1 = some e) : insertNR s p = s := by
  rw [insertNR_eq_ite, h]
  rfl

lemma insertF_present {s : HashMap K V} {p : K × V} {e : Entry K V}
    (h : find s p.1 = some e) : ∀ f, insertF f s p = s := by
  intro f
  cases f with
  | zero => exact insertNR_present h
  | succ f =>
    rw [insertF_succ_eq, h]
    rfl

lemma pushBump_WF {s : HashMap K V} (hw : WF s) {p : K × V}
    (habs : ∀ e ∈ s.storage, e.key ≠ p.1)
    (hload : (s.numElements + 1) * 2 < s.capacity) :
    WF (pushBump s p (applyHash s p.1)) := by
  have hlt : applyHash s p.1 < s.capacity := applyHash_lt hw p.1
  have hlen : applyHash s p.1 < s.table.length := by rw [hw.tableLen]; exact hlt
  refine ⟨?_, ?_, ?_, ?_, ?_, ?_, ?_, ?_, ?_, ?_⟩
  · simp [pushBump, length_setChain, hw.tableLen]
  · simpa [pushBump] using hw.cap16
  · simpa [pushBump] using hload
  · simp [pushBump, hw.count]
  · simp only [pushBump, List.map_append, List.map_cons, List.map_nil]
    rw [List.nodup_append]
    refine ⟨hw.keysNodup, by simp, ?_⟩
    intro a ha hb
    simp only [List.mem_singleton] at hb
    rcases List.mem_map.1 ha with ⟨e, he, hek⟩
    exact habs e he (by rw [hek, hb])
  · simp only [pushBump, List.map_append, List.map_cons, List.map_nil]
    rw [List.nodup_append]
    refine ⟨hw.idsNodup, by simp, ?_⟩
    intro a ha hb
    simp only [List.mem_singleton] at hb
    rcases List.mem_map.1 ha with ⟨e, he, hei⟩
    have := hw.idsLt e he
    omega
  · intro e he
    simp only [pushBump, List.mem_append, List.mem_singleton] at he
    simp only [pushBump]
    rcases he with he | he
    · have := hw.idsLt e he
      omega
    · rw [he]
      simp
  · intro h' hcap i hi
    simp only [pushBump] at hcap hi ⊢
    by_cases hh : h' = applyHash s p.1
    · subst hh
      rw [chainAt_setChain_self hlen] at hi
      rcases List.mem_append.1 hi with hi | hi
      · rcases hw.chainSound _ hcap i hi with ⟨e, he, hei, heh⟩
        exact ⟨e, List.mem_append_left _ he, hei, heh⟩
      · simp only [List.mem_singleton] at hi
        refine ⟨⟨s.nextId, p.1, p.2⟩, List.mem_append_right _ (by simp), hi.symm, rfl⟩
    · rw [chainAt_setChain_ne hh] at hi
      rcases hw.chainSound _ hcap i hi with ⟨e, he, hei, heh⟩
      exact ⟨e, List.mem_append_left _ he, hei, heh⟩
  · intro e he
    simp only [pushBump, List.mem_append, List.mem_singleton] at he
    simp only [pushBump]
    rcases he with he | he
    · have hmem := hw.chainComplete e he
      by_cases hh : applyHash s e.key = applyHash s p.1
      · rw [show applyHash { s with
            storage := s.storage ++ [⟨s.nextId, p.1, p.2⟩],
            table := setChain s.table (applyHash s p.1)
              (chainAt s.table (applyHash s p.1) ++ [s.nextId]),
            nextId := s.nextId + 1,
            numElements := s.numElements + 1 } e.key = applyHash s e.key from rfl, hh,
          chainAt_setChain_self hlen]
        exact List.mem_append_left _ (hh ▸ hmem)
      · rw [show applyHash { s with
            storage := s.storage ++ [⟨s.nextId, p.1, p.2⟩],
            table := setChain s.table (applyHash s p.1)
              (chainAt s.table (applyHash s p.1) ++ [s.nextId]),
            nextId := s.nextId + 1,
            numElements := s.numElements + 1 } e.key = applyHash s e.key from rfl,
          chainAt_setChain_ne hh]
        exact hmem
    · rw [he]
      rw [show applyHash { s with
            storage := s.storage ++ [⟨s.nextId, p.1, p.2⟩],
            table := setChain s.table (applyHash s p.1)
              (chainAt s.table (applyHash s p.1) ++ [s.nextId]),
            nextId := s.nextId + 1,
            numElements := s.numElements + 1 } p.1 = applyHash s p.1 from rfl,
        chainAt_setChain_self hlen]
      exact List.mem_append_right _ (by simp)
  · intro h' hcap
    simp only [pushBump] at hcap ⊢
    by_cases hh : h' = applyHash s p.1
    · subst hh
      rw [chainAt_setChain_self hlen, List.nodup_append]
      refine ⟨hw.chainNodup _ hcap, by simp, ?_⟩
      intro a ha hb
      simp only [List.mem_singleton] at hb
      rcases hw.chainSound _ hcap a ha with ⟨e, he, hei, heh⟩
      have := hw.idsLt e he
      omega
    · rw [chainAt_setChain_ne hh]
      exact hw.chainNodup _ hcap

lemma insertNR_fresh_spec {s : HashMap K V} (hw : WF s) {p : K × V}
    (habs : find s p.1 = none)
    (hload : (s.numElements + 1) * 2 < s.capacity) :
    WF (insertNR s p) ∧
    (insertNR s p).storage = s.storage ++ [⟨s.nextId, p.1, p.2⟩] ∧
    (insertNR s p).capacity = s.capacity ∧
    (insertNR s p).numElements = s.numElements + 1 ∧
    (insertNR s p).nextId = s.nextId + 1 ∧
    (insertNR s p).rehashes = s.rehashes ∧
    (insertNR s p).hasher = s.hasher ∧
    (∀ f, insertF f s p = insertNR s p) := by
  have hne : (find s p.1).isSome = false := by rw [habs]; rfl
  have habs' : ∀ e ∈ s.storage, e.key ≠ p.1 := (find_eq_none_iff hw).1 habs
  have hr : insertNR s p = pushBump s p (applyHash s p.1) := by
    rw [insertNR_eq_ite, hne]
    rfl
  refine ⟨hr ▸ pushBump_WF hw habs' hload, by simp [hr, pushBump], by simp [hr, pushBump],
    by simp [hr, pushBump], by simp [hr, pushBump], by simp [hr, pushBump],
    by simp [hr, pushBump], ?_⟩
  intro f
  cases f with
  | zero => rfl
  | succ f =>
    rw [insertF_succ_eq, hne]
    simp only [Bool.false_eq_true, if_false]
    rw [hr]
    have hguard : (pushBump s p (applyHash s p.1)).numElements * 2 <
        (pushBump s p (applyHash s p.1)).capacity := by
      simpa [pushBump] using hload
    rw [if_pos hguard]

/-! ### Folding fresh inserts below the load bound -/

lemma foldl_insert_fresh (f : Nat) :
    ∀ (l : List (K × V)) (s : HashMap K V), WF s →
      (l.map Prod.fst).Nodup →
      (∀ p ∈ l, ∀ e ∈ s.storage, e.key ≠ p.1) →
      (s.numElements + l.length) * 2 < s.capacity →
      WF (l.foldl (insertF f) s) ∧
      (l.foldl (insertF f) s).storage = s.storage ++ buildEntries s.nextId l ∧
      (l.foldl (insertF f) s).capacity = s.capacity ∧
      (l.foldl (insertF f) s).numElements = s.numElements + l.length ∧
      (l.foldl (insertF f) s).nextId = s.nextId + l.length ∧
      (l.foldl (insertF f) s).rehashes = s.rehashes ∧
      (l.foldl (insertF f) s).hasher = s.hasher ∧
      (∀ f', l.foldl (insertF f') s = l.foldl (insertF f) s) := by
  intro l
  induction l with
  | nil =>
    intro s hw _ _ _
    exact ⟨hw, by simp [buildEntries], rfl, by simp, by simp, rfl, rfl, fun f' => rfl⟩
  | cons p rest ih =>
    intro s hw hnd hfresh hload
    obtain ⟨pk, pv⟩ := p
    simp only [List.length_cons] at hload
    simp only [List.map_cons, List.nodup_cons] at hnd
    have habs : find s pk = none := by
      refine (find_eq_none_iff hw).2 ?_
      intro e he
      exact hfresh (pk, pv) (by simp) e he
    have hstep := insertNR_fresh_spec hw (p := (pk, pv)) habs (by omega)
    obtain ⟨hw1, hst1, hcap1, hn1, hid1, hrh1, hh1, hfuel⟩ := hstep
    have hfold : ((pk, pv) :: rest).foldl (insertF f) s =
        rest.foldl (insertF f) (insertNR s (pk, pv)) := by
      rw [List.foldl_cons, hfuel f]
    have hfresh' : ∀ q ∈ rest, ∀ e ∈ (insertNR s (pk, pv)).storage, e.key ≠ q.1 := by
      intro q hq e he
      rw [hst1] at he
      rcases List.mem_append.1 he with he | he
      · exact hfresh q (by simp [hq]) e he
      · simp only [List.mem_singleton] at he
        rw [he]
        intro hc
        simp only at hc
        exact hnd.1 (hc ▸ List.mem_map_of_mem Prod.fst hq)
    have hload' : ((insertNR s (pk, pv)).numElements + rest.length) * 2 <
        (insertNR s (pk, pv)).capacity := by
      rw [hn1, hcap1]
      omega
    obtain ⟨ihw, ihst, ihcap, ihn, ihid, ihrh, ihh, ihfuel⟩ :=
      ih (insertNR s (pk, pv)) hw1 hnd.2 hfresh' hload'
    rw [hfold]
    refine ⟨ihw, ?_, by rw [ihcap, hcap1], ?_, ?_, by rw [ihrh, hrh1],
      by rw [ihh, hh1], ?_⟩
    · rw [ihst, hst1, hid1, List.append_assoc]
      congr 1
    · rw [ihn, hn1]
      simp only [List.length_cons]
      omega
    · rw [ihid, hid1]
      simp only [List.length_cons]
      omega
    · intro f'
      rw [List.foldl_cons, hfuel f']
      exact ihfuel f'

/-! ### The rehash path of insert -/

lemma content_buildEntries (i : Nat) (l : List (K × V)) :
    (buildEntries i l : List (Entry K V)).map (fun e => (e.key, e.val)) = l := by
  induction l generalizing i with
  | nil => rfl
  | cons p rest ih =>
    obtain ⟨k, v⟩ := p
    simp [buildEntries, ih]

lemma content_pushBump (s : HashMap K V) (p : K × V) (h : Nat) :
    content (pushBump s p h) = content s ++ [(p.1, p.2)] := by
  simp [content, pushBump]

lemma resetForRehash_fields (s : HashMap K V) :
    (resetForRehash s).hasher = s.hasher ∧
    (resetForRehash s).storage = ([] : List (Entry K V)) ∧
    (resetForRehash s).capacity = s.capacity * 2 ∧
    (resetForRehash s).table = mkTable (s.capacity * 2) ∧
    (resetForRehash s).numElements = 0 ∧
    (resetForRehash s).nextId = s.nextId ∧
    (resetForRehash s).rehashes = s.rehashes + 1 :=
  ⟨rfl, rfl, rfl, rfl, rfl, rfl, rfl⟩

lemma resetForRehash_WF {s : HashMap K V} (hcap : 16 ≤ s.capacity) :
    WF (resetForRehash s) := by
  refine ⟨?_, ?_, ?_, rfl, by simp [resetForRehash, initializeTable], ?_, ?_, ?_, ?_, ?_⟩
  · simp [resetForRehash, initializeTable, mkTable]
  · simp only [resetForRehash, initializeTable]
    omega
  · simp only [resetForRehash, initializeTable]
    omega
  · simp [resetForRehash, initializeTable]
  · intro e he
    simp [resetForRehash, initializeTable] at he
  · intro h hlt i hi
    rw [show (resetForRehash s).table = mkTable (s.capacity * 2) from rfl,
      chainAt_mkTable] at hi
    simp at hi
  · intro e he
    simp [resetForRehash, initializeTable] at he
  · intro h hlt
    rw [show (resetForRehash s).table = mkTable (s.capacity * 2) from rfl,
      chainAt_mkTable]
    exact List.nodup_nil

lemma insertF_rehash_eq (f : Nat) {s : HashMap K V} {p : K × V}
    (habs : find s p.1 = none)
    (hguard : ¬ (pushBump s p (applyHash s p.1)).numElements * 2 <
        (pushBump s p (applyHash s p.1)).capacity) :
    insertF (f + 1) s p =
      (content (pushBump s p (applyHash s p.1))).foldl (fun acc q => insertF f acc q)
        (resetForRehash (pushBump s p (applyHash s p.1))) := by
  rw [insertF_succ_eq, habs]
  simp only [Option.isSome_none, Bool.false_eq_true, if_false]
  rw [if_neg hguard]

lemma insert_absent_spec {s : HashMap K V} (hw : WF s) {k : K} {v : V}
    (habs : find s k = none) :
    WF (insert s (k, v)) ∧
    content (insert s (k, v)) = content s ++ [(k, v)] ∧
    (insert s (k, v)).numElements = s.numElements + 1 ∧
    (insert s (k, v)).hasher = s.hasher ∧
    ((s.numElements + 1) * 2 < s.capacity →
      (insert s (k, v)).storage = s.storage ++ [⟨s.nextId, k, v⟩] ∧
      (insert s (k, v)).capacity = s.capacity ∧
      (insert s (k, v)).rehashes = s.rehashes) ∧
    (¬ (s.numElements + 1) * 2 < s.capacity →
      (insert s (k, v)).capacity = s.capacity * 2 ∧
      (insert s (k, v)).rehashes = s.rehashes + 1) ∧
    (∀ f, insertF (f + 1) s (k, v) = insert s (k, v)) := by
  have habs' : ∀ e ∈ s.storage, e.key ≠ k := (find_eq_none_iff hw).1 habs
  by_cases hguard : (s.numElements + 1) * 2 < s.capacity
  · obtain ⟨hw1, hst1, hcap1, hn1, hid1, hrh1, hh1, hfuel⟩ :=
      insertNR_fresh_spec hw (p := (k, v)) habs hguard
    have hins : insert s (k, v) = insertNR s (k, v) := hfuel 1
    refine ⟨hins ▸ hw1, ?_, hins ▸ hn1, hins ▸ hh1,
      fun _ => ⟨hins ▸ hst1, hins ▸ hcap1, hins ▸ hrh1⟩,
      fun hc => absurd hguard hc, fun f => (hfuel (f + 1)).trans hins.symm⟩
    · rw [content, hins, hst1]
      simp [content]
  · -- the rehash path
    have hguard' : ¬ (pushBump s (k, v) (applyHash s k)).numElements * 2 <
        (pushBump s (k, v) (applyHash s k)).capacity := by
      simpa [pushBump] using hguard
    have hre : ∀ f, insertF (f + 1) s (k, v) =
        (content (pushBump s (k, v) (applyHash s k))).foldl (fun acc q => insertF f acc q)
          (resetForRehash (pushBump s (k, v) (applyHash s k))) :=
      fun f => insertF_rehash_eq f habs hguard'
    have hbase := resetForRehash_WF (s := pushBump s (k, v) (applyHash s k))
      (by simpa [pushBump] using hw.cap16)
    have hcontent : content (pushBump s (k, v) (applyHash s k)) =
        content s ++ [(k, v)] := content_pushBump s (k, v) _
    have hkeysnd : ((content (pushBump s (k, v) (applyHash s k))).map Prod.fst).Nodup := by
      rw [hcontent]
      simp only [List.map_append, List.map_cons, List.map_nil]
      rw [List.nodup_append]
      refine ⟨by simpa [content, List.map_map, Function.comp] using hw.keysNodup,
        by simp, ?_⟩
      intro a ha hb
      simp only [List.mem_singleton] at hb
      rcases List.mem_map.1 ha with ⟨q, hq, hqa⟩
      rcases List.mem_map.1 hq with ⟨e, he, heq⟩
      refine habs' e he ?_
      have : e.key = a := by rw [← hqa, ← heq]
      rw [this, hb]
    have hlen : (content (pushBump s (k, v) (applyHash s k))).length =
        s.numElements + 1 := by
      rw [hcontent]
      simp [content, hw.count]
    have hload2 : ((resetForRehash (pushBump s (k, v) (applyHash s k))).numElements +
        (content (pushBump s (k, v) (applyHash s k))).length) * 2 <
        (resetForRehash (pushBump s (k, v) (applyHash s k))).capacity := by
      rw [hlen]
      have h1 : (resetForRehash (pushBump s (k, v) (applyHash s k))).numElements = 0 := rfl
      have h2 : (resetForRehash (pushBump s (k, v) (applyHash s k))).capacity =
          s.capacity * 2 := rfl
      rw [h1, h2]
      have := hw.load
      have := hw.cap16
      omega
    have hfreshbase : ∀ q ∈ content (pushBump s (k, v) (applyHash s k)),
        ∀ e ∈ (resetForRehash (pushBump s (k, v) (applyHash s k))).storage,
          e.key ≠ q.1 := by
      intro q hq e he
      simp only [show (resetForRehash (pushBump s (k, v) (applyHash s k))).storage =
        ([] : List (Entry K V)) from rfl] at he
      simp at he
    obtain ⟨fw, fst, fcap, fn, fid, frh, fh, ffuel⟩ :=
      foldl_insert_fresh 0 (content (pushBump s (k, v) (applyHash s k)))
        (resetForRehash (pushBump s (k, v) (applyHash s k))) hbase hkeysnd hfreshbase hload2
    have hins : insert s (k, v) =
        (content (pushBump s (k, v) (applyHash s k))).foldl (fun acc q => insertF 0 acc q)
          (resetForRehash (pushBump s (k, v) (applyHash s k))) := hre 0
    refine ⟨hins ▸ fw, ?_, ?_, ?_, fun hc => absurd hc hguard, fun _ => ⟨?_, ?_⟩, ?_⟩
    · rw [content, hins, fst]
      rw [show (resetForRehash (pushBump s (k, v) (applyHash s k))).storage =
        ([] : List (Entry K V)) from rfl]
      rw [List.nil_append, content_buildEntries, hcontent]
    · rw [hins, fn, hlen]
      have h1 : (resetForRehash (pushBump s (k, v) (applyHash s k))).numElements = 0 := rfl
      rw [h1]
      omega
    · rw [hins, fh]
      rfl
    · rw [hins, fcap]
      rfl
    · rw [hins, frh]
      rfl
    · intro f
      rw [hre f, hins]
      exact ffuel f

/-! ### Derived insert facts and erase -/

lemma insert_present_eq {s : HashMap K V} {p : K × V} {e : Entry K V}
    (h : find s p.1 = some e) : insert s p = s :=
  insertF_present h 1

lemma insert_WF {s : HashMap K V} (hw : WF s) (p : K × V) : WF (insert s p) := by
  obtain ⟨k, v⟩ := p
  cases hf : find s k with
  | some e => rw [insert_present_eq (p := (k, v)) hf]; exact hw
  | none => exact (insert_absent_spec hw hf).1

lemma erase_absent {s : HashMap K V} {k : K}
    (habs : find s k = none) : erase s k = s := by
  have hscan : scanChainId s k (chainAt s.table (applyHash s k)) = none := by
    rw [scanChainId_eq,
      show scanChain s k (chainAt s.table (applyHash s k)) = find s k from rfl, habs]
    rfl
  simp only [erase, hscan]

lemma erase_present_spec {s : HashMap K V} (hw : WF s) {k : K} {e : Entry K V}
    (hf : find s k = some e) :
    WF (erase s k) ∧
    (∀ e', e' ∈ (erase s k).storage ↔ e' ∈ s.storage ∧ e' ≠ e) ∧
    (erase s k).numElements = s.numElements - 1 ∧
    (erase s k).capacity = s.capacity ∧
    (erase s k).hasher = s.hasher ∧
    (erase s k).rehashes = s.rehashes ∧
    (erase s k).nextId = s.nextId := by
  obtain ⟨he, hk⟩ := scanChain_eq_some (l := chainAt s.table (applyHash s k)) hf
  have hscan : scanChainId s k (chainAt s.table (applyHash s k)) = some e.id := by
    rw [scanChainId_eq,
      show scanChain s k (chainAt s.table (applyHash s k)) = find s k from rfl, hf]
    rfl
  have hr : erase s k = { s with
      storage := eraseFirst (fun x => x.id == e.id) s.storage,
      table := setChain s.table (applyHash s k)
        (eraseFirst (fun j => j == e.id) (chainAt s.table (applyHash s k))),
      numElements := s.numElements - 1 } := by
    simp only [erase, hscan]
  have hstnd : s.storage.Nodup := List.Nodup.of_map _ hw.idsNodup
  have hu : ∀ x ∈ s.storage, ((fun x => x.id == e.id) x = true ↔ x = e) := by
    intro x hx
    constructor
    · intro hb
      exact map_nodup_unique hw.idsNodup hx he (by simpa using hb)
    · intro hx'
      rw [hx']
      simp
  obtain ⟨hlenst, hmemst⟩ := eraseFirst_spec (fun x => x.id == e.id) e s.storage he hstnd hu
  have hlt : applyHash s k < s.capacity := applyHash_lt hw k
  have hlen : applyHash s k < s.table.length := by rw [hw.tableLen]; exact hlt
  have hidc : e.id ∈ chainAt s.table (applyHash s k) := by
    have := hw.chainComplete e he
    rwa [hk] at this
  have hcnodup := hw.chainNodup _ hlt
  have hu2 : ∀ j ∈ chainAt s.table (applyHash s k), ((fun j => j == e.id) j = true ↔ j = e.id) := by
    intro j hj
    simp
  obtain ⟨hlenc, hmemc⟩ :=
    eraseFirst_spec (fun j => j == e.id) e.id (chainAt s.table (applyHash s k)) hidc hcnodup hu2
  have hidne : ∀ e' ∈ s.storage, e' ≠ e → e'.id ≠ e.id := by
    intro e' he' hne hc
    exact hne (map_nodup_unique hw.idsNodup he' he hc)
  rw [hr]
  refine ⟨⟨?_, ?_, ?_, ?_, ?_, ?_, ?_, ?_, ?_, ?_⟩, ?_, rfl, rfl, rfl, rfl, rfl⟩
  · simp [length_setChain, hw.tableLen]
  · exact hw.cap16
  · have := hw.load
    simp only []
    omega
  · have := hw.count
    simp only []
    omega
  · exact List.Nodup.sublist
      (List.Sublist.map _ (eraseFirst_sublist (fun x => x.id == e.id) s.storage))
      hw.keysNodup
  · exact List.Nodup.sublist
      (List.Sublist.map _ (eraseFirst_sublist (fun x => x.id == e.id) s.storage))
      hw.idsNodup
  · intro e' he'
    exact hw.idsLt e' ((hmemst e').1 he').1
  · intro h' hcap i hi
    simp only [] at hcap hi ⊢
    by_cases hh : h' = applyHash s k
    · subst hh
      rw [chainAt_setChain_self hlen] at hi
      obtain ⟨hic, hine⟩ := (hmemc i).1 hi
      rcases hw.chainSound _ hcap i hic with ⟨e3, he3, hid3, hh3⟩
      have hne3 : e3 ≠ e := by
        intro hc
        exact hine (by rw [← hid3, hc])
      exact ⟨e3, (hmemst e3).2 ⟨he3, hne3⟩, hid3, hh3⟩
    · rw [chainAt_setChain_ne hh] at hi
      rcases hw.chainSound _ hcap i hi with ⟨e3, he3, hid3, hh3⟩
      have hne3 : e3 ≠ e := by
        intro hc
        rw [hc, hk] at hh3
        exact hh hh3.symm
      exact ⟨e3, (hmemst e3).2 ⟨he3, hne3⟩, hid3, hh3⟩
  · intro e' he'
    obtain ⟨he's, he'ne⟩ := (hmemst e').1 he'
    have hcc := hw.chainComplete e' he's
    simp only []
    by_cases hh : applyHash s e'.key = applyHash s k
    · rw [show applyHash { s with
          storage := eraseFirst (fun x => x.id == e.id) s.storage,
          table := setChain s.table (applyHash s k)
            (eraseFirst (fun j => j == e.id) (chainAt s.table (applyHash s k))),
          numElements := s.numElements - 1 } e'.key = applyHash s e'.key from rfl, hh,
        chainAt_setChain_self hlen]
      exact (hmemc e'.id).2 ⟨hh ▸ hcc, hidne e' he's he'ne⟩
    · rw [show applyHash { s with
          storage := eraseFirst (fun x => x.id == e.id) s.storage,
          table := setChain s.table (applyHash s k)
            (eraseFirst (fun j => j == e.id) (chainAt s.table (applyHash s k))),
          numElements := s.numElements - 1 } e'.key = applyHash s e'.key from rfl,
        chainAt_setChain_ne hh]
      exact hcc
  · intro h' hcap
    simp only [] at hcap ⊢
    by_cases hh : h' = applyHash s k
    · subst hh
      rw [chainAt_setChain_self hlen]
      exact List.Nodup.sublist (eraseFirst_sublist _ _) hcnodup
    · rw [chainAt_setChain_ne hh]
      exact hw.chainNodup _ hcap
  · intro e'
    exact hmemst e'

/-! ### clear and index -/

lemma chainAt_setChain_self_or (t : List (List Nat)) (h : Nat) (c : List Nat) :
    chainAt (setChain t h c) h = c ∨ chainAt (setChain t h c) h = [] := by
  by_cases hh : h < t.length
  · left
    exact chainAt_setChain_self hh c
  · right
    rw [setChain_of_le_length (Nat.le_of_not_lt hh),
      chainAt_of_le_length (Nat.le_of_not_lt hh)]

lemma foldl_setChain_len (s : HashMap K V) :
    ∀ (l : List (Entry K V)) (t : List (List Nat)),
      (l.foldl (fun t e => setChain t (applyHash s e.key) []) t).length = t.length := by
  intro l
  induction l with
  | nil => intro t; rfl
  | cons e rest ih =>
    intro t
    rw [List.foldl_cons, ih, length_setChain]

lemma foldl_setChain_chainAt (s : HashMap K V) :
    ∀ (l : List (Entry K V)) (t : List (List Nat)) (h : Nat),
      chainAt (l.foldl (fun t e => setChain t (applyHash s e.key) []) t) h = [] ∨
      (chainAt (l.foldl (fun t e => setChain t (applyHash s e.key) []) t) h = chainAt t h ∧
        ∀ e ∈ l, applyHash s e.key ≠ h) := by
  intro l
  induction l with
  | nil =>
    intro t h
    right
    exact ⟨rfl, by simp⟩
  | cons e0 rest ih =>
    intro t h
    rw [List.foldl_cons]
    rcases ih (setChain t (applyHash s e0.key) []) h with hc | ⟨hc, hmiss⟩
    · left
      exact hc
    · by_cases hh : applyHash s e0.key = h
      · left
        rw [hc, ← hh]
        rcases chainAt_setChain_self_or t (applyHash s e0.key) [] with h1 | h1
        · exact h1
        · exact h1
      · right
        refine ⟨?_, ?_⟩
        · rw [hc, chainAt_setChain_ne (fun hcc => hh hcc.symm)]
        · intro e hel
          rcases List.mem_cons.1 hel with he | he
          · rw [he]
            exact hh
          · exact hmiss e he

lemma clear_chains_empty {s : HashMap K V} (hw : WF s) (h : Nat) :
    chainAt (clear s).table h = [] := by
  have htab : (clear s).table =
      s.storage.foldl (fun t e => setChain t (applyHash s e.key) []) s.table := rfl
  rw [htab]
  rcases foldl_setChain_chainAt s s.storage s.table h with hc | ⟨hc, hmiss⟩
  · exact hc
  · rw [hc]
    by_cases hcap : h < s.capacity
    · rcases hce : chainAt s.table h with _ | ⟨i, rest⟩
      · rfl
      · exfalso
        have hi : i ∈ chainAt s.table h := by rw [hce]; simp
        rcases hw.chainSound h hcap i hi with ⟨e, he, hid, hhe⟩
        exact hmiss e he hhe
    · exact chainAt_of_le_length (by rw [hw.tableLen]; omega)

lemma clear_WF {s : HashMap K V} (hw : WF s) : WF (clear s) := by
  refine ⟨?_, hw.cap16, ?_, rfl, by simp [clear], by simp [clear], ?_, ?_, ?_, ?_⟩
  · rw [show (clear s).table =
      s.storage.foldl (fun t e => setChain t (applyHash s e.key) []) s.table from rfl,
      foldl_setChain_len, hw.tableLen]
    rfl
  · have := hw.capPos
    simpa [clear] using this
  · intro e he
    simp [clear] at he
  · intro h hcap i hi
    rw [clear_chains_empty hw] at hi
    simp at hi
  · intro e he
    simp [clear] at he
  · intro h hcap
    rw [clear_chains_empty hw]
    exact List.nodup_nil

lemma find_clear (s : HashMap K V) (k : K) : find (clear s) k = none := by
  rw [find]
  exact scanChain_storage_nil rfl k _

lemma index_present [Inhabited V] {s : HashMap K V} {k : K} {e : Entry K V}
    (hf : find s k = some e) : index s k = (e.val, s) := by
  simp only [index, hf]

lemma index_absent [Inhabited V] {s : HashMap K V} (hw : WF s) {k : K}
    (hf : find s k = none) :
    index s k = (default, insert s (k, default)) := by
  obtain ⟨hw', hcontent, _, _, _, _, _⟩ := insert_absent_spec hw (v := (default : V)) hf
  have hv : findVal (insert s (k, default)) k = some default := by
    rw [findVal_eq_some_iff_content hw', hcontent]
    simp
  rw [findVal] at hv
  cases hff : find (insert s (k, default)) k with
  | none =>
    rw [hff] at hv
    cases hv
  | some e' =>
    rw [hff] at hv
    have hval : e'.val = default := by
      simpa using hv
    simp only [index, hf, hff, hval]

/-! ### Constructors, growth bookkeeping, assignment -/

lemma emptyMap_WF (hasher : K → Nat) : WF (emptyMap hasher : HashMap K V) := by
  refine ⟨?_, ?_, ?_, rfl, ?_, ?_, ?_, ?_, ?_, ?_⟩
  · simp [emptyMap, initializeTable, mkTable]
  · exact Nat.le_refl 16
  · simp [emptyMap, initializeTable]
  · simp [emptyMap, initializeTable]
  · simp [emptyMap, initializeTable]
  · intro e he
    simp [emptyMap, initializeTable] at he
  · intro h hlt i hi
    rw [show (emptyMap hasher : HashMap K V).table = mkTable 16 from rfl,
      chainAt_mkTable] at hi
    simp at hi
  · intro e he
    simp [emptyMap, initializeTable] at he
  · intro h hlt
    rw [show (emptyMap hasher : HashMap K V).table = mkTable 16 from rfl, chainAt_mkTable]
    exact List.nodup_nil

lemma foldl_insert_WF {s : HashMap K V} (hw : WF s) :
    ∀ l : List (K × V), WF (l.foldl insert s) := by
  intro l
  induction l generalizing s with
  | nil => exact hw
  | cons p rest ih =>
    rw [List.foldl_cons]
    exact ih (insert_WF hw p)

lemma ofList_WF (hasher : K → Nat) (l : List (K × V)) : WF (ofList hasher l) :=
  foldl_insert_WF (emptyMap_WF hasher) l

lemma foldl_insert_growth :
    ∀ (l : List (K × V)) (s : HashMap K V), WF s →
      (l.map Prod.fst).Nodup →
      (∀ p ∈ l, ∀ e ∈ s.storage, e.key ≠ p.1) →
      WF (l.foldl insert s) ∧
      content (l.foldl insert s) = content s ++ l ∧
      (l.foldl insert s).numElements = s.numElements + l.length ∧
      (l.foldl insert s).capacity = capAfter s.capacity s.numElements l.length ∧
      (l.foldl insert s).rehashes =
        s.rehashes + rehashCount s.capacity s.numElements l.length ∧
      (l.foldl insert s).hasher = s.hasher := by
  intro l
  induction l with
  | nil =>
    intro s hw _ _
    exact ⟨hw, by simp, by simp, rfl, by simp [rehashCount], rfl⟩
  | cons p rest ih =>
    intro s hw hnd hfresh
    obtain ⟨pk, pv⟩ := p
    simp only [List.map_cons, List.nodup_cons] at hnd
    have habs : find s pk = none :=
      (find_eq_none_iff hw).2 (fun e he => hfresh (pk, pv) (by simp) e he)
    obtain ⟨hw1, hc1, hn1, hh1, hnore, hre, hfuel⟩ := insert_absent_spec hw (v := pv) habs
    have hfresh' : ∀ q ∈ rest, ∀ e ∈ (insert s (pk, pv)).storage, e.key ≠ q.1 := by
      intro q hq e he
      have hmm : (e.key, e.val) ∈ content (insert s (pk, pv)) := List.mem_map.2 ⟨e, he, rfl⟩
      rw [hc1] at hmm
      rcases List.mem_append.1 hmm with hmem | hmem
      · rcases List.mem_map.1 hmem with ⟨e0, he0, heq⟩
        intro hc
        exact hfresh q (by simp [hq]) e0 he0
          (by rw [show e0.key = e.key from congrArg Prod.fst heq, hc])
      · simp only [List.mem_singleton, Prod.mk.injEq] at hmem
        intro hc
        have hq1 : q.1 = pk := by rw [← hc, hmem.1]
        exact hnd.1 (hq1 ▸ List.mem_map_of_mem Prod.fst hq)
    obtain ⟨ihw, ihc, ihn, ihcap, ihrh, ihh⟩ := ih (insert s (pk, pv)) hw1 hnd.2 hfresh'
    rw [List.foldl_cons]
    by_cases hg : (s.numElements + 1) * 2 < s.capacity
    · obtain ⟨hst, hcap, hrh⟩ := hnore hg
      refine ⟨ihw, ?_, ?_, ?_, ?_, ?_⟩
      · rw [ihc, hc1, List.append_assoc]
        rfl
      · rw [ihn, hn1]
        simp only [List.length_cons]
        omega
      · rw [ihcap, hcap, hn1]
        simp only [List.length_cons]
        rw [capAfter, if_pos hg]
      · rw [ihrh, hrh, hcap, hn1]
        simp only [List.length_cons]
        rw [rehashCount, if_pos hg]
      · rw [ihh, hh1]
    · obtain ⟨hcap, hrh⟩ := hre hg
      refine ⟨ihw, ?_, ?_, ?_, ?_, ?_⟩
      · rw [ihc, hc1, List.append_assoc]
        rfl
      · rw [ihn, hn1]
        simp only [List.length_cons]
        omega
      · rw [ihcap, hcap, hn1]
        simp only [List.length_cons]
        rw [capAfter, if_neg hg]
      · rw [ihrh, hrh, hcap, hn1]
        simp only [List.length_cons]
        rw [rehashCount, if_neg hg]
        omega
      · rw [ihh, hh1]

lemma initAssign_WF {s other : HashMap K V} (hwo : WF other) :
    WF (initializeTable { clear s with hasher := other.hasher } other.capacity) := by
  refine ⟨?_, hwo.cap16, ?_, rfl, by simp [clear, initializeTable],
    by simp [clear, initializeTable], ?_, ?_, ?_, ?_⟩
  · simp [initializeTable, mkTable]
  · have := hwo.capPos
    simpa [clear, initializeTable] using this
  · intro e he
    simp [clear, initializeTable] at he
  · intro h hlt i hi
    rw [show (initializeTable { clear s with hasher := other.hasher }
      other.capacity).table = mkTable other.capacity from rfl, chainAt_mkTable] at hi
    simp at hi
  · intro e he
    simp [clear, initializeTable] at he
  · intro h hlt
    rw [show (initializeTable { clear s with hasher := other.hasher }
      other.capacity).table = mkTable other.capacity from rfl, chainAt_mkTable]
    exact List.nodup_nil

lemma content_keys_nodup {t : HashMap K V} (hw : WF t) :
    ((content t).map Prod.fst).Nodup := by
  simpa [content, List.map_map, Function.comp] using hw.keysNodup

lemma assign_spec {s other : HashMap K V} (hwo : WF other) :
    WF (assign s other) ∧
    content (assign s other) = content other ∧
    (assign s other).capacity = other.capacity ∧
    (assign s other).numElements = other.numElements ∧
    (assign s other).hasher = other.hasher := by
  have hbase := initAssign_WF (s := s) hwo
  have hload : ((initializeTable { clear s with hasher := other.hasher }
      other.capacity).numElements + (content other).length) * 2 <
      (initializeTable { clear s with hasher := other.hasher } other.capacity).capacity := by
    have h1 : (initializeTable { clear s with hasher := other.hasher }
        other.capacity).numElements = 0 := rfl
    have h2 : (initializeTable { clear s with hasher := other.hasher }
        other.capacity).capacity = other.capacity := rfl
    have h3 : (content other).length = other.numElements := by
      simp [content, hwo.count]
    rw [h1, h2, h3]
    have := hwo.load
    omega
  have hfresh : ∀ p ∈ content other,
      ∀ e ∈ (initializeTable { clear s with hasher := other.hasher }
        other.capacity).storage, e.key ≠ p.1 := by
    intro p hp e he
    simp [clear, initializeTable] at he
  obtain ⟨fw, fst, fcap, fn, fid, frh, fh, ffuel⟩ :=
    foldl_insert_fresh 1 (content other)
      (initializeTable { clear s with hasher := other.hasher } other.capacity)
      hbase (content_keys_nodup hwo) hfresh hload
  have hassign : assign s other = (content other).foldl (insertF 1)
      (initializeTable { clear s with hasher := other.hasher } other.capacity) := rfl
  refine ⟨hassign ▸ fw, ?_, ?_, ?_, ?_⟩
  · rw [content, hassign, fst]
    rw [show (initializeTable { clear s with hasher := other.hasher }
      other.capacity).storage = ([] : List (Entry K V)) from rfl]
    rw [List.nil_append, content_buildEntries]
  · rw [hassign, fcap]
    rfl
  · rw [hassign, fn]
    have h1 : (initializeTable { clear s with hasher := other.hasher }
        other.capacity).numElements = 0 := rfl
    have h3 : (content other).length = other.numElements := by
      simp [content, hwo.count]
    rw [h1, h3]
    omega
  · rw [hassign, fh]
    rfl

/-! ### Assembled operation specifications -/

lemma insert_find_new {s : HashMap K V} (hw : WF s) {k : K} (v : V)
    (habs : find s k = none) :
    ∃ e, find (insert s (k, v)) k = some e ∧ e.key = k ∧ e.val = v := by
  obtain ⟨hw', hcontent, _, _, _, _, _⟩ := insert_absent_spec hw (v := v) habs
  have hv : findVal (insert s (k, v)) k = some v := by
    rw [findVal_eq_some_iff_content hw', hcontent]
    simp
  rw [findVal] at hv
  cases hff : find (insert s (k, v)) k with
  | none =>
    rw [hff] at hv
    cases hv
  | some e =>
    rw [hff] at hv
    refine ⟨e, rfl, ((find_eq_some_iff hw').1 hff).2, by simpa using hv⟩

lemma erase_find_none {s : HashMap K V} (hw : WF s) (k : K) :
    find (erase s k) k = none := by
  cases hf : find s k with
  | none =>
    rw [erase_absent hf]
    exact hf
  | some e =>
    obtain ⟨hwr, hmem, _, _, _, _, _⟩ := erase_present_spec hw hf
    cases hfr : find (erase s k) k with
    | none => rfl
    | some e' =>
      exfalso
      obtain ⟨he', hk'⟩ := (find_eq_some_iff hwr).1 hfr
      obtain ⟨he's, he'ne⟩ := (hmem e').1 he'
      obtain ⟨he, hke⟩ := (find_eq_some_iff hw).1 hf
      exact he'ne (map_nodup_unique hw.keysNodup he's he (by rw [hk', hke]))

lemma erase_WF {s : HashMap K V} (hw : WF s) (k : K) : WF (erase s k) := by
  cases hf : find s k with
  | none =>
    rw [erase_absent hf]
    exact hw
  | some e => exact (erase_present_spec hw hf).1

/-! ### Claim theorems -/

/-- Claim C1, counterexample.  With the identity hasher, after seven inserts
the entry for key 0 is the storage node with id 0.  Inserting the distinct
key 7 triggers a rehash that clears `storage` and reinserts every pair, so
the held node id 0 no longer dereferences (the reference is dangling) and the
entry for key 0 now lives in a different node (id 8): an insert of an
unrelated key does not leave the identity of the held reference unchanged. -/
theorem C1_counterexample :
    (find (ofList (fun n : Nat => n)
      [(0, 10), (1, 11), (2, 12), (3, 13), (4, 14), (5, 15), (6, 16)]) 0 =
      some ⟨0, 0, 10⟩) ∧
    (derefId (insert (ofList (fun n : Nat => n)
      [(0, 10), (1, 11), (2, 12), (3, 13), (4, 14), (5, 15), (6, 16)]) (7, 17)) 0 =
      none) ∧
    (find (insert (ofList (fun n : Nat => n)
      [(0, 10), (1, 11), (2, 12), (3, 13), (4, 14), (5, 15), (6, 16)]) (7, 17)) 0 =
      some ⟨8, 0, 10⟩) := by
  decide

/-- Claim C1, amended.  For a held entry `e` of key `k1` and a distinct key
`k2`: `find k1` still yields the value of `e` after `insert (k2, v2)` (even
through a rehash) and after `erase k2`; the held reference keeps its identity
and value across `erase k2` and across any `insert (k2, v2)` that does not
trigger a rehash (key present, or load guard still satisfied).  A rehashing
insert, however, rebuilds storage and invalidates held references (see the
counterexample). -/
theorem C1_reference_stability {s : HashMap K V} (hw : WF s) {e : Entry K V}
    {k1 k2 : K} (he : e ∈ s.storage) (hk : e.key = k1) (hne : k2 ≠ k1) (v2 : V) :
    findVal (insert s (k2, v2)) k1 = some e.val ∧
    ((find s k2).isSome = true ∨ (s.numElements + 1) * 2 < s.capacity →
      find (insert s (k2, v2)) k1 = some e) ∧
    find (erase s k2) k1 = some e ∧
    e ∈ (erase s k2).storage := by
  have hfind1 : find s k1 = some e := (find_eq_some_iff hw).2 ⟨he, hk⟩
  have herase : find (erase s k2) k1 = some e ∧ e ∈ (erase s k2).storage := by
    cases hf2 : find s k2 with
    | none =>
      rw [erase_absent hf2]
      exact ⟨hfind1, he⟩
    | some e2 =>
      obtain ⟨hwr, hmem, _, _, _, _, _⟩ := erase_present_spec hw hf2
      obtain ⟨he2, hke2⟩ := (find_eq_some_iff hw).1 hf2
      have hnee2 : e ≠ e2 := by
        intro hc
        rw [hc] at hk
        exact hne (by rw [← hke2]; exact hk)
      have hein : e ∈ (erase s k2).storage := (hmem e).2 ⟨he, hnee2⟩
      exact ⟨(find_eq_some_iff hwr).2 ⟨hein, hk⟩, hein⟩
  cases hf2 : find s k2 with
  | some e2 =>
    have heq : insert s (k2, v2) = s := insert_present_eq (p := (k2, v2)) hf2
    refine ⟨?_, fun _ => by rw [heq]; exact hfind1, herase.1, herase.2⟩
    rw [heq, findVal, hfind1]
    rfl
  | none =>
    obtain ⟨hw', hcontent, _, _, hnore, _, _⟩ := insert_absent_spec hw (v := v2) hf2
    refine ⟨?_, ?_, herase.1, herase.2⟩
    · rw [findVal_eq_some_iff_content hw', hcontent]
      exact List.mem_append_left _ (mem_content_iff.2 ⟨e, he, hk, rfl⟩)
    · intro hcase
      rcases hcase with hcase | hcase
      · simp at hcase
      · obtain ⟨hst, _, _⟩ := hnore hcase
        refine (find_eq_some_iff hw').2 ⟨?_, hk⟩
        rw [hst]
        exact List.mem_append_left _ he

/-- Claim C1, witness of the amended theorem at a concrete container. -/
theorem C1_witness :
    (findVal (insert (ofList (fun n : Nat => n) [(0, 10), (1, 11)]) (2, 12)) 0 =
      some 10) ∧
    ((find (ofList (fun n : Nat => n) [(0, 10), (1, 11)]) 2).isSome = true ∨
      ((ofList (fun n : Nat => n) [(0, 10), (1, 11)]).numElements + 1) * 2 <
        (ofList (fun n : Nat => n) [(0, 10), (1, 11)]).capacity →
      find (insert (ofList (fun n : Nat => n) [(0, 10), (1, 11)]) (2, 12)) 0 =
        some ⟨0, 0, 10⟩) ∧
    (find (erase (ofList (fun n : Nat => n) [(0, 10), (1, 11)]) 2) 0 =
      some ⟨0, 0, 10⟩) ∧
    ((⟨0, 0, 10⟩ : Entry Nat Nat) ∈
      (erase (ofList (fun n : Nat => n) [(0, 10), (1, 11)]) 2).storage) :=
  @C1_reference_stability Nat Nat _ (ofList (fun n : Nat => n) [(0, 10), (1, 11)])
    (by decide) ⟨0, 0, 10⟩ 0 2 (by decide) rfl (by decide) 12

/-- Claim C2.  After every completed public mutating operation (insert,
erase, clear, operator-index, copy-assignment) and for every constructor, the
load invariant `2 * size() < capacity` holds; in particular the transient
violation inside `insert` is resolved by the rehash before the call
returns. -/
theorem C2_load_invariant [Inhabited V] {s other : HashMap K V} (hw : WF s)
    (hwo : WF other) (p : K × V) (k : K) (hasher2 : K → Nat) (l2 : List (K × V)) :
    2 * size (insert s p) < (insert s p).capacity ∧
    2 * size (erase s k) < (erase s k).capacity ∧
    2 * size (clear s) < (clear s).capacity ∧
    2 * size (index s k).2 < ((index s k).2).capacity ∧
    2 * size (assign s other) < (assign s other).capacity ∧
    2 * size (emptyMap hasher2 : HashMap K V) < (emptyMap hasher2 : HashMap K V).capacity ∧
    2 * size (ofList hasher2 l2) < (ofList hasher2 l2).capacity := by
  have h1 := (insert_WF hw p).load
  have h2 := (erase_WF hw k).load
  have h3 := (clear_WF hw).load
  have h5 := (assign_spec (s := s) hwo).1.load
  have h6 := (emptyMap_WF (V := V) hasher2).load
  have h7 := (ofList_WF hasher2 l2).load
  have h4 : 2 * size (index s k).2 < ((index s k).2).capacity := by
    cases hf : find s k with
    | some e =>
      rw [index_present hf]
      have := hw.load
      simp only [size]
      omega
    | none =>
      rw [index_absent hw hf]
      have := (insert_WF hw (k, default)).load
      simp only [size]
      omega
  simp only [size] at *
  omega

/-- Claim C2, witness at concrete containers. -/
theorem C2_witness :
    2 * size (insert (ofList (fun n : Nat => n) [(0, 10), (1, 11)]) (2, 12)) <
      (insert (ofList (fun n : Nat => n) [(0, 10), (1, 11)]) (2, 12)).capacity ∧
    2 * size (erase (ofList (fun n : Nat => n) [(0, 10), (1, 11)]) 0) <
      (erase (ofList (fun n : Nat => n) [(0, 10), (1, 11)]) 0).capacity ∧
    2 * size (clear (ofList (fun n : Nat => n) [(0, 10), (1, 11)])) <
      (clear (ofList (fun n : Nat => n) [(0, 10), (1, 11)])).capacity ∧
    2 * size (index (ofList (fun n : Nat => n) [(0, 10), (1, 11)]) 0).2 <
      ((index (ofList (fun n : Nat => n) [(0, 10), (1, 11)]) 0).2).capacity ∧
    2 * size (assign (ofList (fun n : Nat => n) [(0, 10), (1, 11)])
        (ofList (fun n : Nat => n) [(0, 10), (1, 11)])) <
      (assign (ofList (fun n : Nat => n) [(0, 10), (1, 11)])
        (ofList (fun n : Nat => n) [(0, 10), (1, 11)])).capacity ∧
    2 * size (emptyMap (fun n : Nat => n) : HashMap Nat Nat) <
      (emptyMap (fun n : Nat => n) : HashMap Nat Nat).capacity ∧
    2 * size (ofList (fun n : Nat => n) [(5, 5)]) <
      (ofList (fun n : Nat => n) [(5, 5)]).capacity :=
  C2_load_invariant (by decide) (by decide) (2, 12) 0 (fun n => n) [(5, 5)]

/-- Claim C3.  `erase k` then `find k` yields the not-found marker, and on a
state where `k` is absent, `insert (k, v)` then `find k` yields an entry with
key `k` and value `v`. -/
theorem C3_round_trip {s : HashMap K V} (hw : WF s) (k : K) (v : V) :
    find (erase s k) k = none ∧
    (find s k = none →
      ∃ e, find (insert s (k, v)) k = some e ∧ e.key = k ∧ e.val = v) :=
  ⟨erase_find_none hw k, fun habs => insert_find_new hw v habs⟩

/-- Claim C3, witness at a concrete container. -/
theorem C3_witness :
    find (erase (ofList (fun n : Nat => n) [(0, 10), (1, 11)]) 1) 1 = none ∧
    (find (ofList (fun n : Nat => n) [(0, 10), (1, 11)]) 3 = none →
      ∃ e, find (insert (ofList (fun n : Nat => n) [(0, 10), (1, 11)]) (3, 7)) 3 =
        some e ∧ e.key = 3 ∧ e.val = 7) := by
  have h1 := C3_round_trip (s := ofList (fun n : Nat => n) [(0, 10), (1, 11)])
    (by decide) 1 7
  have h2 := C3_round_trip (s := ofList (fun n : Nat => n) [(0, 10), (1, 11)])
    (by decide) 3 7
  exact ⟨h1.1, h2.2⟩

/-- Claim C4, counterexample.  The claim quantifies over every container
state, but when key 0 is already stored with value 5, the sequence
`insert (0, 1); insert (0, 2)` leaves the stored value 5, not `v1 = 1`: both
inserts are no-ops, so the stored value equals the pre-existing value rather
than `v1`. -/
theorem C4_counterexample :
    findVal (insert (insert (insert (emptyMap (fun n : Nat => n)) (0, 5)) (0, 1)) (0, 2))
      0 = some 5 ∧
    findVal (insert (insert (insert (emptyMap (fun n : Nat => n)) (0, 5)) (0, 1)) (0, 2))
      0 ≠ some 1 := by
  decide

/-- Claim C4, amended.  The second insert of the pair is always a complete
no-op (the state, hence contents, size and capacity, is unchanged), and the
stored value is `v1` provided key `k` was absent before the first insert;
when `k` was already present, the pre-existing value persists instead. -/
theorem C4_idempotent {s : HashMap K V} (hw : WF s) (k : K) (v1 v2 : V) :
    insert (insert s (k, v1)) (k, v2) = insert s (k, v1) ∧
    (find s k = none →
      findVal (insert (insert s (k, v1)) (k, v2)) k = some v1) := by
  have hpresent : ∃ e, find (insert s (k, v1)) k = some e := by
    cases hf : find s k with
    | some e =>
      rw [insert_present_eq (p := (k, v1)) hf]
      exact ⟨e, hf⟩
    | none =>
      obtain ⟨e, hfe, _, _⟩ := insert_find_new hw v1 hf
      exact ⟨e, hfe⟩
  obtain ⟨e, hfe⟩ := hpresent
  have hnoop : insert (insert s (k, v1)) (k, v2) = insert s (k, v1) :=
    insert_present_eq (p := (k, v2)) hfe
  refine ⟨hnoop, ?_⟩
  intro habs
  obtain ⟨e', hfe', hke', hve'⟩ := insert_find_new hw v1 habs
  rw [hnoop, findVal, hfe']
  simp [hve']

/-- Claim C4, witness of the amended theorem at a concrete container. -/
theorem C4_witness :
    insert (insert (emptyMap (fun n : Nat => n)) (0, 1)) (0, 2) =
      insert (emptyMap (fun n : Nat => n)) (0, 1) ∧
    (find (emptyMap (fun n : Nat => n) : HashMap Nat Nat) 0 = none →
      findVal (insert (insert (emptyMap (fun n : Nat => n)) (0, 1)) (0, 2)) 0 =
        some 1) :=
  C4_idempotent (by decide) 0 1 2

/-- Claim C5, counterexample.  After growing to capacity 32, `clear()`
leaves the capacity at 32: the bucket array is not reset to the initial
capacity 16 (the C++ `clear` never calls `initializeTable`). -/
theorem C5_counterexample :
    (clear (ofList (fun n : Nat => n)
      [(0, 10), (1, 11), (2, 12), (3, 13), (4, 14), (5, 15), (6, 16), (7, 17)])).capacity
      = 32 ∧
    (32 : Nat) ≠ 16 := by
  decide

/-- Claim C5, amended.  `clear()` removes all entries — afterwards `size()`
is 0, `empty()` is true and `find` misses every key — but the bucket array
capacity is left unchanged, not reset to the initial capacity 16. -/
theorem C5_clear_spec {s : HashMap K V} (hw : WF s) (k : K) :
    size (clear s) = 0 ∧
    emptyQ (clear s) = true ∧
    find (clear s) k = none ∧
    (clear s).capacity = s.capacity :=
  ⟨rfl, rfl, find_clear s k, rfl⟩

/-- Claim C5, witness of the amended theorem at a concrete container. -/
theorem C5_witness :
    size (clear (ofList (fun n : Nat => n) [(0, 10), (1, 11)])) = 0 ∧
    emptyQ (clear (ofList (fun n : Nat => n) [(0, 10), (1, 11)])) = true ∧
    find (clear (ofList (fun n : Nat => n) [(0, 10), (1, 11)])) 0 = none ∧
    (clear (ofList (fun n : Nat => n) [(0, 10), (1, 11)])).capacity =
      (ofList (fun n : Nat => n) [(0, 10), (1, 11)]).capacity :=
  C5_clear_spec (by decide) 0

/-- Claim C6, counterexample.  The C++ `insert` is declared `void`: it
returns no reference at all, even though after the call an entry for the key
is stored and findable.  `insertRet` models the (absent) returned
information. -/
theorem C6_counterexample :
    insertRet (emptyMap (fun n : Nat => n) : HashMap Nat Nat) (0, 5) = none ∧
    (find (insert (emptyMap (fun n : Nat => n)) (0, 5)) 0).isSome = true :=
  ⟨rfl, by decide⟩

/-- Claim C6, amended.  `insert` returns nothing (`void`); the entry stored
after the call is the newly created entry (key `k`, value `v`) when `k` was
absent, and the untouched pre-existing entry when `k` was present — in both
cases reachable through `find`, but never through a return value. -/
theorem C6_insert_result {s : HashMap K V} (hw : WF s) (k : K) (v : V) :
    insertRet s (k, v) = none ∧
    (find s k = none →
      ∃ e, find (insert s (k, v)) k = some e ∧ e.key = k ∧ e.val = v) ∧
    (∀ e, find s k = some e → insert s (k, v) = s ∧ find (insert s (k, v)) k = some e) := by
  refine ⟨rfl, fun habs => insert_find_new hw v habs, ?_⟩
  intro e hf
  have heq : insert s (k, v) = s := insert_present_eq (p := (k, v)) hf
  rw [heq]
  exact ⟨rfl, hf⟩

/-- Claim C6, witness of the amended theorem at a concrete container. -/
theorem C6_witness :
    insertRet (ofList (fun n : Nat => n) [(0, 10)]) (3, 7) = none ∧
    (find (ofList (fun n : Nat => n) [(0, 10)]) 3 = none →
      ∃ e, find (insert (ofList (fun n : Nat => n) [(0, 10)]) (3, 7)) 3 = some e ∧
        e.key = 3 ∧ e.val = 7) ∧
    (∀ e, find (ofList (fun n : Nat => n) [(0, 10)]) 3 = some e →
      insert (ofList (fun n : Nat => n) [(0, 10)]) (3, 7) =
        ofList (fun n : Nat => n) [(0, 10)] ∧
      find (insert (ofList (fun n : Nat => n) [(0, 10)]) (3, 7)) 3 = some e) :=
  C6_insert_result (by decide) 3 7

/-- Claim C7.  `at(k)` fails (raises OutOfRange, modelled as `none`) exactly
when `k` is absent from the storage — in particular on the empty container —
and when `k` is present it returns the stored value; being a function of the
state only, it performs no mutation, and every other public operation of the
embedding is a total function. -/
theorem C7_at_spec {s : HashMap K V} (hw : WF s) (k : K) :
    (atKey s k = none ↔ (∀ e ∈ s.storage, e.key ≠ k)) ∧
    (∀ e ∈ s.storage, e.key = k → atKey s k = some e.val) ∧
    (s.storage = [] → atKey s k = none) := by
  have hnone : atKey s k = none ↔ find s k = none := by
    cases hf : find s k with
    | none => simp [atKey, hf]
    | some e => simp [atKey, hf]
  refine ⟨?_, ?_, ?_⟩
  · rw [hnone, find_eq_none_iff hw]
  · intro e he hk
    rw [atKey, (find_eq_some_iff hw).2 ⟨he, hk⟩]
  · intro hst
    rw [hnone, find_eq_none_iff hw]
    intro e he
    rw [hst] at he
    cases he

/-- Claim C7, witness at a concrete container (including the empty one via an
absent key). -/
theorem C7_witness :
    (atKey (ofList (fun n : Nat => n) [(0, 10), (1, 11)]) 3 = none ↔
      (∀ e ∈ (ofList (fun n : Nat => n) [(0, 10), (1, 11)]).storage, e.key ≠ 3)) ∧
    (∀ e ∈ (ofList (fun n : Nat => n) [(0, 10), (1, 11)]).storage, e.key = 3 →
      atKey (ofList (fun n : Nat => n) [(0, 10), (1, 11)]) 3 = some e.val) ∧
    ((ofList (fun n : Nat => n) [(0, 10), (1, 11)]).storage = [] →
      atKey (ofList (fun n : Nat => n) [(0, 10), (1, 11)]) 3 = none) :=
  C7_at_spec (by decide) 3

/-- Claim C8.  From a default-constructed container (capacity 16), inserting
8 pairwise-distinct keys performs exactly one rehash, and it happens during
the 8th insert: after the first 7 inserts the capacity is still 16 with no
rehash, after the 8th the capacity is 32 with exactly one rehash, and every
one of the 8 keys is findable with its originally inserted value. -/
theorem C8_growth (hasher : K → Nat) (l : List (K × V)) (hlen : l.length = 8)
    (hnd : (l.map Prod.fst).Nodup) :
    (ofList hasher l).capacity = 32 ∧
    (ofList hasher l).rehashes = 1 ∧
    (ofList hasher (l.take 7)).capacity = 16 ∧
    (ofList hasher (l.take 7)).rehashes = 0 ∧
    ∀ p ∈ l, findVal (ofList hasher l) p.1 = some p.2 := by
  have hfresh : ∀ p ∈ l, ∀ e ∈ (emptyMap hasher : HashMap K V).storage, e.key ≠ p.1 := by
    intro p hp e he
    simp [emptyMap, initializeTable] at he
  obtain ⟨fw, fc, fn, fcap, frh, fh⟩ :=
    foldl_insert_growth l (emptyMap hasher) (emptyMap_WF hasher) hnd hfresh
  have hnd7 : ((l.take 7).map Prod.fst).Nodup := by
    rw [List.map_take]
    exact List.Nodup.sublist (List.take_sublist 7 _) hnd
  have hfresh7 : ∀ p ∈ l.take 7,
      ∀ e ∈ (emptyMap hasher : HashMap K V).storage, e.key ≠ p.1 := by
    intro p hp e he
    simp [emptyMap, initializeTable] at he
  obtain ⟨fw7, fc7, fn7, fcap7, frh7, fh7⟩ :=
    foldl_insert_growth (l.take 7) (emptyMap hasher) (emptyMap_WF hasher) hnd7 hfresh7
  have hlen7 : (l.take 7).length = 7 := by
    rw [List.length_take, hlen]
    decide
  refine ⟨?_, ?_, ?_, ?_, ?_⟩
  · rw [ofList, fcap, hlen]
    rfl
  · rw [ofList, frh, hlen]
    rfl
  · rw [ofList, fcap7, hlen7]
    rfl
  · rw [ofList, frh7, hlen7]
    rfl
  · intro p hp
    rw [ofList, findVal_eq_some_iff_content fw, fc,
      show content (emptyMap hasher : HashMap K V) = [] from rfl, List.nil_append]
    simpa using hp

/-- Claim C8, witness: a concrete run with 8 distinct keys under the
identity hasher. -/
theorem C8_witness :
    (ofList (fun n : Nat => n)
      [(0, 10), (1, 11), (2, 12), (3, 13), (4, 14), (5, 15), (6, 16), (7, 17)]).capacity
      = 32 ∧
    (ofList (fun n : Nat => n)
      [(0, 10), (1, 11), (2, 12), (3, 13), (4, 14), (5, 15), (6, 16), (7, 17)]).rehashes
      = 1 ∧
    (ofList (fun n : Nat => n) (List.take 7
      [(0, 10), (1, 11), (2, 12), (3, 13), (4, 14), (5, 15), (6, 16), (7, 17)])).capacity
      = 16 ∧
    (ofList (fun n : Nat => n) (List.take 7
      [(0, 10), (1, 11), (2, 12), (3, 13), (4, 14), (5, 15), (6, 16), (7, 17)])).rehashes
      = 0 ∧
    findVal (ofList (fun n : Nat => n)
      [(0, 10), (1, 11), (2, 12), (3, 13), (4, 14), (5, 15), (6, 16), (7, 17)]) 3 =
      some 13 := by
  have h := C8_growth (fun n : Nat => n)
    [(0, 10), (1, 11), (2, 12), (3, 13), (4, 14), (5, 15), (6, 16), (7, 17)] rfl
    (by decide)
  exact ⟨h.1, h.2.1, h.2.2.1, h.2.2.2.1, h.2.2.2.2 (3, 13) (by decide)⟩

/-- Claim C9.  `operator[]` never fails: on a present key it returns the
stored value with no state change; on an absent key it first inserts the pair
(k, default value) and returns that default value, and the size grows by
one — in particular on an empty container. -/
theorem C9_index [Inhabited V] {s : HashMap K V} (hw : WF s) (k : K) :
    (∀ e, find s k = some e → index s k = (e.val, s)) ∧
    (find s k = none →
      index s k = (default, insert s (k, default)) ∧
      size (index s k).2 = size s + 1) := by
  refine ⟨fun e hf => index_present hf, ?_⟩
  intro habs
  have heq := index_absent hw habs
  refine ⟨heq, ?_⟩
  rw [heq]
  obtain ⟨_, _, hn, _, _, _, _⟩ := insert_absent_spec hw (v := (default : V)) habs
  exact hn

/-- Claim C9, witness: `operator[]` on the empty container with key 0 stores
and returns the default value 0, and the size becomes 1. -/
theorem C9_witness :
    index (emptyMap (fun n : Nat => n) : HashMap Nat Nat) 0 =
      (0, insert (emptyMap (fun n : Nat => n)) (0, 0)) ∧
    size (index (emptyMap (fun n : Nat => n) : HashMap Nat Nat) 0).2 = 1 :=
  (C9_index (by decide) 0).2 rfl

/-- Claim C10.  `insert` terminates and performs at most one rehash: on a
well-formed state, the fuel-indexed unfolding of the insert/update recursion
is already stationary at nesting depth one (the nested inserts issued by the
rehash never satisfy the load guard again, so the reinsertion loop never
re-enters `update`), and one call increments the rehash counter by at most
one. -/
theorem C10_single_rehash {s : HashMap K V} (hw : WF s) (p : K × V) (f : Nat) :
    insertF (f + 1) s p = insert s p ∧
    (insert s p).rehashes ≤ s.rehashes + 1 := by
  obtain ⟨k, v⟩ := p
  cases hf : find s k with
  | some e =>
    have h1 := insertF_present (p := (k, v)) hf
    constructor
    · rw [h1 (f + 1), show insert s (k, v) = insertF 1 s (k, v) from rfl, h1 1]
    · rw [show insert s (k, v) = insertF 1 s (k, v) from rfl, h1 1]
      omega
  | none =>
    obtain ⟨hw', hc, hn, hh, hnore, hre, hfuel⟩ := insert_absent_spec hw (v := v) hf
    constructor
    · exact hfuel f
    · by_cases hg : (s.numElements + 1) * 2 < s.capacity
      · rw [(hnore hg).2.2]
        omega
      · rw [(hre hg).2]

/-- Claim C10, witness: with fuel 2 the insert computes the same state as
the canonical depth-1 insert on a concrete container. -/
theorem C10_witness :
    insertF 2 (emptyMap (fun n : Nat => n) : HashMap Nat Nat) (0, 5) =
      insert (emptyMap (fun n : Nat => n)) (0, 5) ∧
    (insert (emptyMap (fun n : Nat => n) : HashMap Nat Nat) (0, 5)).rehashes ≤
      (emptyMap (fun n : Nat => n) : HashMap Nat Nat).rehashes + 1 :=
  C10_single_rehash (by decide) (0, 5) 1

end HMap
